import Mathlib

/-!
Verification of the document-retrieval core of the HackRx6.0 repository
(`document_processor/text_processor.py` and `document_processor/document_store.py`)
against its natural-language specification.

Python strings are modelled as `List Char`, metadata dictionaries as ordered
association lists, float distances/scores as `ℚ`, and the `while` loop of
`TextProcessor.chunk_text` as a fuel-indexed recursion (`none` = the loop has
not finished within the given fuel).  The external collaborators
(sentence-transformers `encode`, the FAISS flat index, `json`/`faiss`
serialization) are modelled abstractly: `encode` is an arbitrary
`List Char → Option (List ℚ)` parameter (`none` = the call raises), the FAISS
`index.search` output is an arbitrary list of `(position, distance)` pairs,
and serialization is exact on the data it stores.
-/

/-- Python strings as character lists. -/
abbrev PyStr := List Char

/-- Whitespace as recognised by Python's `str.split` / `str.strip` / `re \s`
restricted to the code points that can actually appear in this pipeline
(ASCII whitespace, the ASCII separator controls, NEL and NBSP). -/
def isPySpace (c : Char) : Bool :=
  c = ' ' || c = '\t' || c = '\n' || c = '\r' ||
  c = '\x0b' || c = '\x0c' ||
  c = (Char.ofNat 0x1c) || c = (Char.ofNat 0x1d) ||
  c = (Char.ofNat 0x1e) || c = (Char.ofNat 0x1f) ||
  c = (Char.ofNat 0x85) || c = (Char.ofNat 0xa0)

/-- Helper for `pySplitWs`: accumulates the current word (reversed). -/
def pySplitAux : PyStr → PyStr → List PyStr
  | [], cur => if cur = [] then [] else [cur.reverse]
  | c :: rest, cur =>
    if isPySpace c then
      if cur = [] then pySplitAux rest [] else cur.reverse :: pySplitAux rest []
    else
      pySplitAux rest (c :: cur)

/-- Python `text.split()`: split on runs of whitespace, dropping empty pieces. -/
def pySplitWs (s : PyStr) : List PyStr := pySplitAux s []

/-- Python `' '.join(words)`. -/
def pyJoinSp (ws : List PyStr) : PyStr := List.intercalate [' '] ws

/-- Python `text.encode('ascii', 'ignore').decode('ascii')`: drop every
non-ASCII code point. -/
def asciiFilter (s : PyStr) : PyStr := s.filter (fun c => c.toNat < 128)

/-- ASCII word character, i.e. what `\w` matches on the ASCII-only strings this
regex receives (it runs after `asciiFilter`). -/
def isWordChar (c : Char) : Bool :=
  ('a' ≤ c && c ≤ 'z') || ('A' ≤ c && c ≤ 'Z') || ('0' ≤ c && c ≤ '9') || c = '_'

/-- A character kept verbatim by `re.sub(r'[^\w\s.,;:!?()\[\]\-]', ' ', text)`. -/
def keepChar (c : Char) : Bool :=
  isWordChar c || isPySpace c ||
  c = '.' || c = ',' || c = ';' || c = ':' || c = '!' || c = '?' ||
  c = '(' || c = ')' || c = '[' || c = ']' || c = '-'

/-- `re.sub(r'[^\w\s.,;:!?()\[\]\-]', ' ', text)`: every character outside the
allowed set is replaced by a single space. -/
def reSubSpecial (s : PyStr) : PyStr := s.map (fun c => if keepChar c then c else ' ')

/-- Python `text.strip()`: drop leading and trailing whitespace. -/
def pyStrip (s : PyStr) : PyStr :=
  ((s.dropWhile isPySpace).reverse.dropWhile isPySpace).reverse

/-- `TextProcessor.clean_text`: `' '.join(text.split())`, then drop non-ASCII,
then replace disallowed symbols by spaces, then strip the ends. -/
def cleanText (s : PyStr) : PyStr :=
  pyStrip (reSubSpecial (asciiFilter (pyJoinSp (pySplitWs s))))

/-- Python `text[a:b]` for `0 ≤ a ≤ b`. -/
def pySlice (s : PyStr) (a b : Nat) : PyStr := (s.take b).drop a

/-- Python `text.rfind(c, a, b)`: the largest index `i` with `a ≤ i < b`,
`i < len(text)` and `text[i] = c`, or `-1` if there is none. -/
def pyRfind (s : PyStr) (c : Char) (a b : Nat) : Int :=
  (((List.range (min b s.length)).filter
      (fun i => decide (a ≤ i) && (s.get? i == some c))).foldl
    (fun _ i => (i : Int)) (-1))

/-- A JSON-like metadata value. -/
inductive PyVal where
  | int (n : Int)
  | str (s : PyStr)
  deriving DecidableEq, Repr

/-- A Python dict with string keys, as an insertion-ordered association list. -/
abbrev PyDict := List (String × PyVal)

/-- Python `d[key]` lookup (`None` when absent). -/
def dictGet : PyDict → String → Option PyVal
  | [], _ => none
  | (k, v) :: rest, key => if k = key then some v else dictGet rest key

/-- One key/value assignment of Python `dict.update`: replace an existing key in
place, otherwise append. -/
def dictSet : PyDict → String → PyVal → PyDict
  | [], key, v => [(key, v)]
  | (k, w) :: rest, key, v =>
    if k = key then (k, v) :: rest else (k, w) :: dictSet rest key v

/-- Python `dict.copy()`: a fresh, equal dictionary; subsequent updates are
applied to the copy, never to the original. -/
def dictCopy (d : PyDict) : PyDict := d

/-- `TextChunk` dataclass: text, metadata, optional embedding (default `None`). -/
structure TextChunk where
  text : PyStr
  metadata : PyDict
  embedding : Option (List ℚ)
  deriving DecidableEq, Repr

/-- The window-end computation of one `chunk_text` iteration:
`end = min(start + self.chunk_size, text_length)`, then, when the window ends
before the text does, snap to just past the last `.`/`!`/`?` found after the
window's midpoint. -/
def chunkEnd (cs : Nat) (text : PyStr) (start : Nat) : Nat :=
  let e0 := min (start + cs) text.length
  if e0 < text.length then
    let se := max (pyRfind text '.' start e0)
                (max (pyRfind text '!' start e0) (pyRfind text '?' start e0))
    if se > (start : Int) + ((cs / 2 : Nat) : Int) then se.toNat + 1 else e0
  else e0

/-- The chunk-accumulation step of one `chunk_text` iteration:
`chunk_text = text[start:end].strip()`; a non-empty chunk is appended with a
copy of the caller's metadata extended by `chunk_start`, `chunk_end`,
`chunk_id = len(chunks)`. -/
def chunkAppend (meta : PyDict) (text : PyStr) (start e : Nat)
    (acc : List TextChunk) : List TextChunk :=
  let ct := pyStrip (pySlice text start e)
  if ct = [] then acc
  else
    acc ++ [{ text := ct,
              metadata :=
                dictSet (dictSet (dictSet (dictCopy meta)
                  "chunk_start" (.int start))
                  "chunk_end" (.int e))
                  "chunk_id" (.int acc.length),
              embedding := none }]

/-- The advance step of one `chunk_text` iteration:
`start = end - self.overlap if end > self.overlap else end`, followed by the
(ineffective) guard `if start == end and end < text_length: start = end`. -/
def nextStart (ov textLen e : Nat) : Nat :=
  let start1 := if ov < e then e - ov else e
  if start1 = e ∧ e < textLen then e else start1

/-- The body of `TextProcessor.chunk_text`'s `while start < text_length` loop,
indexed by fuel (`none` = the loop is still running after `fuel` iterations).
`cs`/`ov` are `self.chunk_size`/`self.overlap`. -/
def chunkLoop (cs ov : Nat) (text : PyStr) (meta : PyDict) :
    Nat → Nat → List TextChunk → Option (List TextChunk)
  | 0, _, _ => none
  | fuel + 1, start, acc =>
    if start < text.length then
      chunkLoop cs ov text meta fuel
        (nextStart ov text.length (chunkEnd cs text start))
        (chunkAppend meta text start (chunkEnd cs text start) acc)
    else some acc

/-- `TextProcessor.chunk_text` with the constructor defaults
`chunk_size = 1000`, `overlap = 200`, under `fuel` loop iterations. -/
def chunkTextFuel (fuel : Nat) (text : PyStr) (meta : PyDict) : Option (List TextChunk) :=
  chunkLoop 1000 200 text meta fuel 0 []

/-- `Optional.map`-free model of batch `model.encode(texts)` followed by the
`zip` assignment in `embed_chunks`: one embedding per text, in order; `none`
models the encode call raising, in which case nothing is assigned. -/
def optMapM (f : α → Option β) : List α → Option (List β)
  | [] => some []
  | x :: xs =>
    match f x with
    | none => none
    | some y => (optMapM f xs).map (fun ys => y :: ys)

/-- `TextProcessor.embed_chunks`: empty input short-circuits; otherwise encode
every chunk text and store the embeddings on the chunks. `enc` is the abstract
sentence-transformers encoder (`none` = the call raises). -/
def embedChunks (enc : PyStr → Option (List ℚ)) (chunks : List TextChunk) :
    Option (List TextChunk) :=
  if chunks = [] then some []
  else optMapM (fun c => (enc c.text).map (fun e => { c with embedding := some e })) chunks

/-- `TextProcessor.process_document`: clean, chunk, embed.  Outer `none` = the
chunking loop has not terminated within `fuel`; inner `none` = the embedding
call raised. -/
def processDocument (enc : PyStr → Option (List ℚ)) (fuel : Nat)
    (text : PyStr) (meta : PyDict) : Option (Option (List TextChunk)) :=
  match chunkTextFuel fuel (cleanText text) meta with
  | none => none
  | some chunks => some (embedChunks enc chunks)

/-- How a chunk record's embedding is stored: as a Python list of floats
(`embedding.tolist()`, what `add_document` writes) or as a NumPy array
(what `load` reconstructs).  `json.dump` can serialize only the former. -/
inductive EmbRep where
  | npArr (v : List ℚ)
  | pyList (v : List ℚ)
  deriving DecidableEq, Repr

/-- One entry of `DocumentStore.metadata_store`: the `asdict(chunk)` record. -/
structure StoredRec where
  text : PyStr
  metadata : PyDict
  embedding : EmbRep
  deriving DecidableEq, Repr

/-- The mutable state of a `DocumentStore`: the FAISS flat index (a list of
vectors in insertion order) and the parallel metadata list. -/
structure Store where
  index : List (List ℚ)
  meta : List StoredRec
  deriving DecidableEq, Repr

/-- A freshly constructed `DocumentStore`: empty index, empty metadata. -/
def freshStore : Store := { index := [], meta := [] }

/-- Result of one `add_document` call: either the embedding call raised and the
exception propagated (with the store in state `st` at that moment), or the call
returned a chunk list with the store in state `st`. -/
inductive AddOutcome where
  | raised (st : Store)
  | returned (chunks : List TextChunk) (st : Store)
  deriving DecidableEq, Repr

/-- `DocumentStore.add_document`: process the document; on success append all
embeddings to the index and all `asdict` records (embedding converted with
`tolist()`) to the metadata store; an empty chunk list returns `[]` without
touching either. -/
def addDocument (enc : PyStr → Option (List ℚ)) (fuel : Nat) (st : Store)
    (text : PyStr) (meta : PyDict) : Option AddOutcome :=
  match processDocument enc fuel text meta with
  | none => none
  | some none => some (.raised st)
  | some (some chunks) =>
    if chunks = [] then some (.returned [] st)
    else
      some (.returned chunks
        { index := st.index ++ chunks.map (fun c => c.embedding.getD []),
          meta := st.meta ++ chunks.map (fun c =>
            { text := c.text, metadata := c.metadata,
              embedding := .pyList (c.embedding.getD []) }) })

/-- `SearchResult` dataclass. -/
structure SearchResult where
  text : PyStr
  metadata : PyDict
  score : ℚ
  deriving DecidableEq, Repr

/-- The similarity score `1 / (1 + distance)` computed in
`DocumentStore.search`. -/
def dScore (d : ℚ) : ℚ := 1 / (1 + d)

/-- One iteration of the result-collection loop of `DocumentStore.search`:
`continue` on an out-of-range position (`idx < 0 or idx >= len`), compute the
score, keep the record when `score >= threshold`. -/
def keepOne (recs : List StoredRec) (threshold : ℚ) (p : Int × ℚ) :
    Option SearchResult :=
  if p.1 < 0 ∨ (recs.length : Int) ≤ p.1 then none
  else if threshold ≤ dScore p.2 then
    (recs.get? p.1.toNat).map (fun r =>
      { text := r.text, metadata := r.metadata, score := dScore p.2 })
  else none

/-- The result-collection loop of `DocumentStore.search` (lines 91-106) over
all `(position, distance)` pairs returned by the index. -/
def keptResults (out : List (Int × ℚ)) (recs : List StoredRec) (threshold : ℚ) :
    List SearchResult :=
  out.filterMap (keepOne recs threshold)

/-- The tail of `DocumentStore.search`: collect results, then
`results.sort(key=lambda x: x.score, reverse=True)` — a stable descending sort
by score. -/
def searchPost (out : List (Int × ℚ)) (recs : List StoredRec) (threshold : ℚ) :
    List SearchResult :=
  (keptResults out recs threshold).mergeSort (fun a b => decide (b.score ≤ a.score))

/-- `DocumentStore.search` end to end: embed the query (the call may raise,
giving `none`), ask the FAISS index (`faiss` abstracts
`self.index.search(qv, k)[0]` as position/distance pairs), post-process. -/
def searchStore (faiss : List (List ℚ) → List ℚ → Nat → List (Int × ℚ))
    (enc : PyStr → Option (List ℚ)) (st : Store) (q : PyStr) (k : Nat)
    (threshold : ℚ) : Option (List SearchResult) :=
  (enc q).map (fun qv => searchPost (faiss st.index qv k) st.meta threshold)

/-- `DocumentStore.clear`: fresh index, empty metadata. -/
def clearStore (_st : Store) : Store := { index := [], meta := [] }

/-- One external call in a usage history of a `DocumentStore`. -/
inductive StoreOp where
  | add (text : PyStr) (meta : PyDict)
  | clear

/-- Run one operation; an `add_document` whose embedding call raises leaves the
state unchanged at the caller (who may catch and continue); a non-terminating
chunking loop gives `none`. -/
def runOp (enc : PyStr → Option (List ℚ)) (fuel : Nat) (st : Store) :
    StoreOp → Option Store
  | .add t m =>
    match addDocument enc fuel st t m with
    | none => none
    | some (.raised st') => some st'
    | some (.returned _ st') => some st'
  | .clear => some (clearStore st)

/-- Run a finite sequence of store operations. -/
def runOps (enc : PyStr → Option (List ℚ)) (fuel : Nat) :
    List StoreOp → Store → Option Store
  | [], st => some st
  | op :: ops, st =>
    match runOp enc fuel st op with
    | none => none
    | some st' => runOps enc fuel ops st'

/-- What `DocumentStore.save` writes: the FAISS index file
(`faiss.write_index`, exact) and the `metadata.json` contents (`json.dump`,
exact on JSON-representable values). -/
structure Persisted where
  indexFile : List (List ℚ)
  metadataJson : List StoredRec
  deriving DecidableEq, Repr

/-- Whether a stored embedding value is JSON-serializable: `json.dump` accepts
the `tolist()` lists written by `add_document` and raises on NumPy arrays. -/
def jsonReady : EmbRep → Bool
  | .pyList _ => true
  | .npArr _ => false

/-- `DocumentStore.save`: write the index and dump the metadata records;
`none` models `json.dump` raising on a non-serializable embedding. -/
def saveStore (st : Store) : Option Persisted :=
  if st.meta.all (fun r => jsonReady r.embedding) then
    some { indexFile := st.index, metadataJson := st.meta }
  else none

/-- The raw float list held by either embedding representation. -/
def EmbRep.val : EmbRep → List ℚ
  | .npArr v => v
  | .pyList v => v

/-- `DocumentStore.load`: read the index back and rebuild the metadata store,
converting each record's embedding with `np.array(...)`. -/
def loadStore (p : Persisted) : Store :=
  { index := p.indexFile,
    meta := p.metadataJson.map (fun r => { r with embedding := .npArr r.embedding.val }) }

/-! ### Dictionary lemmas -/

theorem dictGet_dictSet_same (d : PyDict) (k : String) (v : PyVal) :
    dictGet (dictSet d k v) k = some v := by
  induction d with
  | nil => simp [dictSet, dictGet]
  | cons hd tl ih =>
    obtain ⟨k', w⟩ := hd
    by_cases h : k' = k
    · subst h; simp [dictSet, dictGet]
    · simp [dictSet, dictGet, h, ih]

theorem dictGet_dictSet_other (d : PyDict) (k key : String) (v : PyVal)
    (h : key ≠ k) : dictGet (dictSet d k v) key = dictGet d key := by
  induction d with
  | nil => simp [dictSet, dictGet, Ne.symm h]
  | cons hd tl ih =>
    obtain ⟨k', w⟩ := hd
    by_cases hk : k' = k
    · subst hk; simp [dictSet, dictGet, Ne.symm h]
    · by_cases hkey : k' = key
      · subst hkey; simp [dictSet, dictGet, hk]
      · simp [dictSet, dictGet, hk, hkey, ih]

/-! ### Stripping lemmas -/

theorem head?_dropWhile_not (p : α → Bool) (l : List α) {a : α}
    (h : (l.dropWhile p).head? = some a) : p a = false := by
  induction l with
  | nil => simp [List.dropWhile] at h
  | cons x xs ih =>
    rw [List.dropWhile_cons] at h
    by_cases hx : p x
    · rw [if_pos hx] at h; exact ih h
    · rw [if_neg hx] at h
      simp only [List.head?_cons, Option.some.injEq] at h
      subst h
      exact Bool.eq_false_iff.mpr hx

theorem getLast?_dropWhile (p : α → Bool) (l : List α)
    (h : l.dropWhile p ≠ []) : (l.dropWhile p).getLast? = l.getLast? := by
  obtain ⟨pre, hpre⟩ := @List.dropWhile_suffix _ l p
  conv_rhs => rw [← hpre]
  rw [List.getLast?_append_of_ne_nil _ h]

theorem pyStrip_head {s : PyStr} {a : Char}
    (h : (pyStrip s).head? = some a) : isPySpace a = false := by
  unfold pyStrip at h
  rw [List.head?_reverse] at h
  have hne : (s.dropWhile isPySpace).reverse.dropWhile isPySpace ≠ [] := by
    intro h0; rw [h0] at h; simp at h
  rw [getLast?_dropWhile _ _ hne, List.getLast?_reverse] at h
  exact head?_dropWhile_not _ _ h

theorem pyStrip_getLast {s : PyStr} {a : Char}
    (h : (pyStrip s).getLast? = some a) : isPySpace a = false := by
  unfold pyStrip at h
  rw [List.getLast?_reverse] at h
  exact head?_dropWhile_not _ _ h

theorem dropWhile_eq_self_of_head (p : α → Bool) (l : List α)
    (h : ∀ a, l.head? = some a → p a = false) : l.dropWhile p = l := by
  cases l with
  | nil => rfl
  | cons x xs =>
    rw [List.dropWhile_cons, if_neg]
    simp [h x rfl]

theorem pyStrip_eq_self {l : PyStr}
    (h1 : ∀ a, l.head? = some a → isPySpace a = false)
    (h2 : ∀ a, l.getLast? = some a → isPySpace a = false) : pyStrip l = l := by
  unfold pyStrip
  rw [dropWhile_eq_self_of_head _ _ h1,
    dropWhile_eq_self_of_head _ _ (fun a ha => h2 a (by rwa [List.head?_reverse] at ha)),
    List.reverse_reverse]

theorem pyStrip_idem (s : PyStr) : pyStrip (pyStrip s) = pyStrip s :=
  pyStrip_eq_self (fun _ h => pyStrip_head h) (fun _ h => pyStrip_getLast h)

/-- `clean_text` output is already stripped: stripping it again changes
nothing. -/
theorem cleanText_stripped (t : PyStr) : pyStrip (cleanText t) = cleanText t := by
  unfold cleanText
  exact pyStrip_idem _

/-! ### `rfind` and window-end bounds -/

theorem foldl_pick_last (l : List Nat) (init : Int) :
    l.foldl (fun _ i => (i : Int)) init = init ∨
    ∃ x ∈ l, l.foldl (fun _ i => (i : Int)) init = (x : Int) := by
  induction l generalizing init with
  | nil => left; rfl
  | cons x xs ih =>
    rcases ih (x : Int) with h | ⟨y, hy, hf⟩
    · right; exact ⟨x, by simp, by simpa [List.foldl] using h⟩
    · right; exact ⟨y, by simp [hy], by simpa [List.foldl] using hf⟩

theorem pyRfind_bounds {s : PyStr} {c : Char} {a b : Nat}
    (h : 0 ≤ pyRfind s c a b) :
    a ≤ (pyRfind s c a b).toNat ∧ (pyRfind s c a b).toNat < min b s.length := by
  unfold pyRfind at *
  rcases foldl_pick_last
      ((List.range (min b s.length)).filter
        (fun i => decide (a ≤ i) && (s.get? i == some c))) (-1) with h0 | ⟨x, hx, hf⟩
  · rw [h0] at h; norm_num at h
  · rw [hf]
    simp only [List.mem_filter, List.mem_range, Bool.and_eq_true, decide_eq_true_eq] at hx
    obtain ⟨hlt, hax, _⟩ := hx
    constructor <;> simp [hax, hlt]

theorem max3_choice (a b c : Int) :
    max a (max b c) = a ∨ max a (max b c) = b ∨ max a (max b c) = c := by
  rcases max_choice a (max b c) with h | h
  · exact Or.inl h
  · rcases max_choice b c with h2 | h2
    · exact Or.inr (Or.inl (h.trans h2))
    · exact Or.inr (Or.inr (h.trans h2))

theorem chunkEnd_cases (cs : Nat) (text : PyStr) (start : Nat) :
    chunkEnd cs text start = min (start + cs) text.length ∨
    chunkEnd cs text start < text.length := by
  unfold chunkEnd
  by_cases h0 : min (start + cs) text.length < text.length
  · rw [if_pos h0]
    set se := max (pyRfind text '.' start (min (start + cs) text.length))
      (max (pyRfind text '!' start (min (start + cs) text.length))
        (pyRfind text '?' start (min (start + cs) text.length))) with hse
    by_cases hsnap : se > (start : Int) + ((cs / 2 : Nat) : Int)
    · rw [if_pos hsnap]
      right
      have hse0 : 0 ≤ se := le_trans (by positivity) (le_of_lt hsnap)
      rcases max3_choice (pyRfind text '.' start (min (start + cs) text.length))
          (pyRfind text '!' start (min (start + cs) text.length))
          (pyRfind text '?' start (min (start + cs) text.length)) with he | he | he <;>
        · rw [hse, he] at hse0 ⊢
          have := (pyRfind_bounds hse0).2
          omega
    · rw [if_neg hsnap]; left; rfl
  · rw [if_neg h0]; left; rfl

theorem chunkEnd_le (cs : Nat) (text : PyStr) (start : Nat) :
    chunkEnd cs text start ≤ text.length := by
  rcases chunkEnd_cases cs text start with h | h <;> omega

/-! ### Loop behaviour -/

theorem nextStart_eq (ov textLen e : Nat) :
    nextStart ov textLen e =
      if (if ov < e then e - ov else e) = e ∧ e < textLen then e
      else if ov < e then e - ov else e := rfl

theorem nextStart_le (ov textLen e : Nat) : nextStart ov textLen e ≤ e := by
  rw [nextStart_eq]
  split_ifs <;> omega

/-- Whenever the loop is entered with `start < text_length` and the text is
longer than a positive overlap, the next start is again `< text_length`: the
loop of `chunk_text` can never exit. -/
theorem nextStart_lt (cs ov : Nat) (text : PyStr) (start : Nat)
    (hov : 0 < ov) (hlen : ov < text.length) (_hstart : start < text.length) :
    nextStart ov text.length (chunkEnd cs text start) < text.length := by
  rcases chunkEnd_cases cs text start with he | he
  · by_cases hfull : chunkEnd cs text start = text.length
    · rw [nextStart_eq, hfull]
      split_ifs <;> omega
    · have := chunkEnd_le cs text start
      have hlt : chunkEnd cs text start < text.length := by omega
      calc nextStart ov text.length (chunkEnd cs text start)
          ≤ chunkEnd cs text start := nextStart_le _ _ _
        _ < text.length := hlt
  · calc nextStart ov text.length (chunkEnd cs text start)
        ≤ chunkEnd cs text start := nextStart_le _ _ _
      _ < text.length := he

/-- The `chunk_text` loop never terminates once started inside a text longer
than the (positive) overlap: for every amount of fuel it is still running. -/
theorem chunkLoop_stuck (cs ov : Nat) (text : PyStr) (meta : PyDict)
    (hov : 0 < ov) (hlen : ov < text.length) :
    ∀ fuel start acc, start < text.length →
      chunkLoop cs ov text meta fuel start acc = none := by
  intro fuel
  induction fuel with
  | zero => intro start acc _; rfl
  | succ f ih =>
    intro start acc hstart
    rw [chunkLoop, if_pos hstart]
    exact ih _ _ (nextStart_lt cs ov text start hov hlen hstart)

theorem chunkLoop_exit (cs ov : Nat) (text : PyStr) (meta : PyDict)
    (fuel start : Nat) (acc : List TextChunk) (h : ¬ start < text.length) :
    chunkLoop cs ov text meta (fuel + 1) start acc = some acc := by
  rw [chunkLoop, if_neg h]

theorem chunkLoop_done (cs ov : Nat) (text : PyStr) (meta : PyDict)
    (fuel start : Nat) (acc chunks : List TextChunk)
    (h : chunkLoop cs ov text meta fuel start acc = some chunks)
    (hstart : ¬ start < text.length) : chunks = acc := by
  cases fuel with
  | zero => exact absurd h (by rw [chunkLoop]; simp)
  | succ f =>
    rw [chunkLoop_exit _ _ _ _ _ _ _ hstart] at h
    exact (Option.some.injEq _ _ ▸ h).symm

/-- Loop invariant carrier for claims about the accumulated chunks: any
property preserved by `chunkAppend` holds of every chunk in a terminating
run's output if it holds of every chunk in the initial accumulator. -/
theorem chunkLoop_all (cs ov : Nat) (text : PyStr) (meta : PyDict)
    (P : TextChunk → Prop)
    (hstep : ∀ start e acc c, (∀ x ∈ acc, P x) →
      c ∈ chunkAppend meta text start e acc → P c) :
    ∀ fuel start acc chunks, (∀ x ∈ acc, P x) →
      chunkLoop cs ov text meta fuel start acc = some chunks →
      ∀ c ∈ chunks, P c := by
  intro fuel
  induction fuel with
  | zero => intro start acc chunks _ h; exact absurd h (by rw [chunkLoop]; simp)
  | succ f ih =>
    intro start acc chunks hacc h
    by_cases hstart : start < text.length
    · rw [chunkLoop, if_pos hstart] at h
      exact ih _ _ _ (fun x hx => hstep _ _ _ _ hacc hx) h
    · rw [chunkLoop_exit _ _ _ _ _ _ _ hstart] at h
      obtain rfl : chunks = acc := (Option.some.injEq _ _ ▸ h).symm
      exact hacc

/-- For a non-empty, already-stripped text no longer than both the chunk size
and the overlap, the loop terminates after producing exactly one chunk
covering the whole text. -/
theorem chunkLoop_small (cs ov : Nat) (text : PyStr) (meta : PyDict)
    (hcs : text.length ≤ cs) (hov : text.length ≤ ov)
    (hstrip : pyStrip text = text) (hlen : 0 < text.length) :
    ∀ fuel chunks, chunkLoop cs ov text meta fuel 0 [] = some chunks →
      chunks = [{ text := text,
                  metadata :=
                    dictSet (dictSet (dictSet (dictCopy meta)
                      "chunk_start" (.int 0))
                      "chunk_end" (.int text.length))
                      "chunk_id" (.int 0),
                  embedding := none }] := by
  intro fuel chunks h
  cases fuel with
  | zero => exact absurd h (by rw [chunkLoop]; simp)
  | succ f =>
    rw [chunkLoop, if_pos hlen] at h
    have he : chunkEnd cs text 0 = text.length := by
      unfold chunkEnd
      have hmin : min (0 + cs) text.length = text.length := by omega
      rw [hmin, if_neg (lt_irrefl text.length)]
    rw [he] at h
    have hslice : pySlice text 0 text.length = text := by
      unfold pySlice
      rw [List.take_length, List.drop_zero]
    have happ : chunkAppend meta text 0 text.length [] =
        [{ text := text,
           metadata :=
             dictSet (dictSet (dictSet (dictCopy meta)
               "chunk_start" (.int 0))
               "chunk_end" (.int text.length))
               "chunk_id" (.int 0),
           embedding := none }] := by
      unfold chunkAppend
      rw [hslice, hstrip, if_neg (by intro h0; rw [h0] at hlen; simp at hlen)]
      rfl
    have hns : nextStart ov text.length text.length = text.length := by
      rw [nextStart_eq]
      split_ifs <;> omega
    rw [happ, hns] at h
    exact chunkLoop_done _ _ _ _ _ _ _ _ h (lt_irrefl _)

/-- **C1.** The claim states that `chunk_text` terminates for every input
because the advance step falls back to `next_start = end` whenever
`end - overlap` makes no forward progress.  The code's actual guard is
`end > overlap`, which is satisfied by any text longer than the overlap, so
the loop gets stuck: on 250 copies of `'a'` (with default
`chunk_size = 1000`, `overlap = 200`) every iteration recomputes
`end = 250` and `start = 50`, and the loop runs forever — `chunk_text`
never returns, whatever the amount of fuel. -/
theorem claim_C1_chunk_text_diverges :
    ∀ fuel, chunkTextFuel fuel (List.replicate 250 'a') [] = none := by
  intro fuel
  unfold chunkTextFuel
  refine chunkLoop_stuck 1000 200 _ [] (by omega)
    (by simp only [List.length_replicate]; omega) fuel 0 []
    (by simp only [List.length_replicate]; omega)

/-- Membership in the result of one accumulation step. -/
theorem mem_chunkAppend {meta : PyDict} {text : PyStr} {start e : Nat}
    {acc : List TextChunk} {c : TextChunk}
    (h : c ∈ chunkAppend meta text start e acc) :
    c ∈ acc ∨ c = { text := pyStrip (pySlice text start e),
                    metadata :=
                      dictSet (dictSet (dictSet (dictCopy meta)
                        "chunk_start" (.int start))
                        "chunk_end" (.int e))
                        "chunk_id" (.int acc.length),
                    embedding := none } := by
  unfold chunkAppend at h
  by_cases h0 : pyStrip (pySlice text start e) = []
  · rw [if_pos h0] at h; exact Or.inl h
  · rw [if_neg h0] at h
    rcases List.mem_append.mp h with h1 | h1
    · exact Or.inl h1
    · exact Or.inr (List.mem_singleton.mp h1)

/-- **C10.** `chunk_text` never mutates the caller's metadata map: every
produced chunk's metadata is a fresh copy of the input dictionary extended
(in order) with `chunk_start`, `chunk_end` and `chunk_id`, and in particular
agrees with the caller's dictionary on every other key; the caller's
dictionary itself is only ever read (`metadata.copy()`), never written. -/
theorem claim_C10_metadata_frame :
    ∀ (text : PyStr) (meta : PyDict) (fuel : Nat) (chunks : List TextChunk),
      chunkTextFuel fuel text meta = some chunks →
      ∀ c ∈ chunks, ∃ s e i : Nat,
        c.metadata = dictSet (dictSet (dictSet (dictCopy meta)
          "chunk_start" (.int s)) "chunk_end" (.int e)) "chunk_id" (.int i) ∧
        ∀ key, key ≠ "chunk_start" → key ≠ "chunk_end" → key ≠ "chunk_id" →
          dictGet c.metadata key = dictGet meta key := by
  intro text meta fuel chunks h c hc
  have hP : ∃ s e i : Nat,
      c.metadata = dictSet (dictSet (dictSet (dictCopy meta)
        "chunk_start" (.int s)) "chunk_end" (.int e)) "chunk_id" (.int i) := by
    refine chunkLoop_all 1000 200 text meta
      (fun c => ∃ s e i : Nat,
        c.metadata = dictSet (dictSet (dictSet (dictCopy meta)
          "chunk_start" (.int s)) "chunk_end" (.int e)) "chunk_id" (.int i))
      ?_ fuel 0 [] chunks (by simp) h c hc
    intro start e acc c hacc hmem
    rcases mem_chunkAppend hmem with h1 | h1
    · exact hacc c h1
    · exact ⟨start, e, acc.length, by rw [h1]⟩
  obtain ⟨s, e, i, hmd⟩ := hP
  refine ⟨s, e, i, hmd, ?_⟩
  intro key h1 h2 h3
  rw [hmd, dictGet_dictSet_other _ _ _ _ h3, dictGet_dictSet_other _ _ _ _ h2,
    dictGet_dictSet_other _ _ _ _ h1]
  rfl

/-- Witness for C10: on the two-character text `"hi"` with metadata
`{"k": 5}` the loop terminates with one chunk whose metadata extends a copy
of the input and still maps `"k"` to `5`. -/
theorem claim_C10_metadata_frame_witness :
    chunkTextFuel 2 (String.toList "hi") [("k", PyVal.int 5)] =
      some [{ text := String.toList "hi",
              metadata := [("k", PyVal.int 5), ("chunk_start", PyVal.int 0),
                           ("chunk_end", PyVal.int 2), ("chunk_id", PyVal.int 0)],
              embedding := none }] ∧
    dictGet [("k", PyVal.int 5), ("chunk_start", PyVal.int 0),
             ("chunk_end", PyVal.int 2), ("chunk_id", PyVal.int 0)] "k" =
      dictGet [("k", PyVal.int 5)] "k" := by
  constructor
  · decide
  · have h := claim_C10_metadata_frame (String.toList "hi") [("k", PyVal.int 5)] 2
      [{ text := String.toList "hi",
         metadata := [("k", PyVal.int 5), ("chunk_start", PyVal.int 0),
                      ("chunk_end", PyVal.int 2), ("chunk_id", PyVal.int 0)],
         embedding := none }]
      (by decide)
      { text := String.toList "hi",
        metadata := [("k", PyVal.int 5), ("chunk_start", PyVal.int 0),
                     ("chunk_end", PyVal.int 2), ("chunk_id", PyVal.int 0)],
        embedding := none }
      (by decide)
    obtain ⟨s, e, i, _, hframe⟩ := h
    exact hframe "k" (by decide) (by decide) (by decide)

/-- **C6.** For every input document, whenever `chunk_text` (run on the
cleaned text) terminates, every produced chunk satisfies
`0 ≤ chunk_start < chunk_end ≤ len(cleaned_text)` and the half-open intervals
`[chunk_start, chunk_end)` of the produced chunks cover
`[0, len(cleaned_text))`. -/
theorem claim_C6_chunk_coverage :
    ∀ (t : PyStr) (m : PyDict) (fuel : Nat) (chunks : List TextChunk),
      chunkTextFuel fuel (cleanText t) m = some chunks →
      (∀ c ∈ chunks, ∃ s e : Nat,
          dictGet c.metadata "chunk_start" = some (.int s) ∧
          dictGet c.metadata "chunk_end" = some (.int e) ∧
          s < e ∧ e ≤ (cleanText t).length) ∧
      (∀ i : Nat, i < (cleanText t).length → ∃ c ∈ chunks, ∃ s e : Nat,
          dictGet c.metadata "chunk_start" = some (.int s) ∧
          dictGet c.metadata "chunk_end" = some (.int e) ∧
          s ≤ i ∧ i < e) := by
  intro t m fuel chunks h
  unfold chunkTextFuel at h
  by_cases h200 : 200 < (cleanText t).length
  · exact absurd h (by
      rw [chunkLoop_stuck 1000 200 (cleanText t) m (by omega) h200 fuel 0 []
        (by omega)]
      simp)
  by_cases hz : (cleanText t).length = 0
  · have hchunks : chunks = [] :=
      chunkLoop_done _ _ _ _ _ _ _ _ h (by omega)
    subst hchunks
    exact ⟨by simp, fun i hi => absurd hi (by omega)⟩
  · have hone := chunkLoop_small 1000 200 (cleanText t) m (by omega) (by omega)
      (cleanText_stripped t) (by omega) fuel chunks h
    subst hone
    have hgs : dictGet (dictSet (dictSet (dictSet (dictCopy m)
        "chunk_start" (.int 0)) "chunk_end" (.int (cleanText t).length))
        "chunk_id" (.int 0)) "chunk_start" = some (.int 0) := by
      rw [dictGet_dictSet_other _ _ _ _ (by decide),
        dictGet_dictSet_other _ _ _ _ (by decide),
        dictGet_dictSet_same]
    have hge : dictGet (dictSet (dictSet (dictSet (dictCopy m)
        "chunk_start" (.int 0)) "chunk_end" (.int (cleanText t).length))
        "chunk_id" (.int 0)) "chunk_end" = some (.int (cleanText t).length) := by
      rw [dictGet_dictSet_other _ _ _ _ (by decide),
        dictGet_dictSet_same]
    constructor
    · intro c hc
      rw [List.mem_singleton] at hc
      subst hc
      exact ⟨0, (cleanText t).length, by simpa using hgs, by simpa using hge,
        by omega, le_refl _⟩
    · intro i hi
      refine ⟨_, List.mem_singleton_self _, 0, (cleanText t).length,
        by simpa using hgs, by simpa using hge, by omega, hi⟩

/-- Witness for C6: the single-chunk run on the document `"hi"`. -/
theorem claim_C6_chunk_coverage_witness :
    chunkTextFuel 2 (cleanText (String.toList "hi")) [] =
      some [{ text := String.toList "hi",
              metadata := [("chunk_start", PyVal.int 0),
                           ("chunk_end", PyVal.int 2), ("chunk_id", PyVal.int 0)],
              embedding := none }] ∧
    (∃ c ∈ [({ text := String.toList "hi",
               metadata := [("chunk_start", PyVal.int 0),
                            ("chunk_end", PyVal.int 2), ("chunk_id", PyVal.int 0)],
               embedding := none } : TextChunk)], ∃ s e : Nat,
        dictGet c.metadata "chunk_start" = some (.int s) ∧
        dictGet c.metadata "chunk_end" = some (.int e) ∧
        s ≤ 0 ∧ 0 < e) := by
  constructor
  · decide
  · exact (claim_C6_chunk_coverage (String.toList "hi") [] 2 _ (by decide)).2
      0 (by decide)

/-! ### Claims about `clean_text` -/

/-- Whether a string contains two adjacent whitespace characters. -/
def hasDoubleWs : PyStr → Bool
  | a :: b :: rest => (isPySpace a && isPySpace b) || hasDoubleWs (b :: rest)
  | _ => false

/-- **C8 counterexample.** The claim says `clean_text` output never contains a
run of two or more consecutive whitespace characters.  On the input `"a@@b"`
the symbol-replacement step rewrites each `'@'` to a space after whitespace
collapsing has already happened, so the output is `"a  b"` — an interior run
of two spaces. -/
theorem claim_C8_counterexample :
    cleanText (String.toList "a@@b") = String.toList "a  b" ∧
    hasDoubleWs (cleanText (String.toList "a@@b")) = true := by
  constructor <;> decide

/-- **C8 (amended).** `clean_text` is total (it is a function on all strings),
maps the empty string to the empty string, and its output has no leading and
no trailing whitespace; interior whitespace runs can, however, be produced by
the symbol-replacement step. -/
theorem claim_C8_clean_text_trimmed :
    cleanText [] = [] ∧
    (∀ (s : PyStr) (a : Char), (cleanText s).head? = some a → isPySpace a = false) ∧
    (∀ (s : PyStr) (a : Char), (cleanText s).getLast? = some a → isPySpace a = false) := by
  refine ⟨rfl, ?_, ?_⟩
  · intro s a h
    unfold cleanText at h
    exact pyStrip_head h
  · intro s a h
    unfold cleanText at h
    exact pyStrip_getLast h

/-- Witness for C8: the output of `clean_text` on `"  x  "` starts and ends
with the non-space character `'x'`. -/
theorem claim_C8_clean_text_trimmed_witness :
    (cleanText (String.toList "  x  ")).head? = some 'x' ∧ isPySpace 'x' = false := by
  refine ⟨by decide, ?_⟩
  exact claim_C8_clean_text_trimmed.2.1 (String.toList "  x  ") 'x' (by decide)

/-! ### Claims about the chunking scenario -/

/-- The document of the spec's scenario (43 characters long). -/
def sentText : PyStr := String.toList "Sentence one. Sentence two. Sentence three."

/-- The scenario's metadata argument `{"title": "T"}`. -/
def titleDict : PyDict := [("title", PyVal.str (String.toList "T"))]

/-- Encoder producing the one-dimensional unit embedding (stands in for the
external sentence-transformers model in concrete runs). -/
def encUnit : PyStr → Option (List ℚ) := fun _ => some [1]

/-- The chunk actually produced by the scenario. -/
def sentChunk : TextChunk :=
  { text := sentText,
    metadata := [("title", PyVal.str (String.toList "T")),
                 ("chunk_start", PyVal.int 0), ("chunk_end", PyVal.int 43),
                 ("chunk_id", PyVal.int 0)],
    embedding := some [1] }

/-- **C9 counterexample.** The scenario text is 43 characters long, so the
single produced chunk spans `[0, 43)` with `chunk_end = 43`, not `[0, 44)`
with `chunk_end = 44` as the claim states. -/
theorem claim_C9_counterexample :
    sentText.length = 43 ∧
    chunkTextFuel 3 (cleanText sentText) titleDict =
      some [{ sentChunk with embedding := none }] ∧
    dictGet sentChunk.metadata "chunk_end" = some (PyVal.int 43) ∧
    (some (PyVal.int 43) ≠ some (PyVal.int 44)) := by
  refine ⟨by decide, by decide, by decide, by decide⟩

/-- **C9 (amended).** `add_document` on
`"Sentence one. Sentence two. Sentence three."` with metadata
`{"title": "T"}` under the defaults `chunk_size = 1000`, `overlap = 200`
yields exactly one chunk spanning `[0, 43)` of the cleaned text, with
metadata `{title: "T", chunk_start: 0, chunk_end: 43, chunk_id: 0}`. -/
theorem claim_C9_scenario :
    addDocument encUnit 3 freshStore sentText titleDict =
      some (.returned [sentChunk]
        { index := [[1]],
          meta := [{ text := sentText, metadata := sentChunk.metadata,
                     embedding := .pyList [1] }] }) ∧
    sentChunk.metadata = [("title", PyVal.str (String.toList "T")),
      ("chunk_start", PyVal.int 0), ("chunk_end", PyVal.int 43),
      ("chunk_id", PyVal.int 0)] := by
  constructor <;> decide

/-! ### Claim about the score function -/

theorem dScore_pos {d : ℚ} (h : 0 ≤ d) : 0 < dScore d :=
  div_pos one_pos (by linarith)

theorem dScore_le_one {d : ℚ} (h : 0 ≤ d) : dScore d ≤ 1 := by
  unfold dScore
  rw [div_le_one (by linarith)]
  linarith

theorem dScore_lt {d1 d2 : ℚ} (h0 : 0 ≤ d1) (h : d1 < d2) :
    dScore d2 < dScore d1 :=
  one_div_lt_one_div_of_lt (by linarith) (by linarith)

theorem dScore_anti {d1 d2 : ℚ} (h0 : 0 ≤ d1) (h : d1 ≤ d2) :
    dScore d2 ≤ dScore d1 :=
  one_div_le_one_div_of_le (by linarith) (by linarith)

/-- **C7.** The score `1/(1+d)` used by `search` is strictly decreasing on
non-negative distances and always lies in the half-open interval `(0, 1]`. -/
theorem claim_C7_score_monotone :
    (∀ d1 d2 : ℚ, 0 ≤ d1 → d1 < d2 → dScore d2 < dScore d1) ∧
    (∀ d : ℚ, 0 ≤ d → 0 < dScore d ∧ dScore d ≤ 1) :=
  ⟨fun _ _ h0 h => dScore_lt h0 h, fun _ h => ⟨dScore_pos h, dScore_le_one h⟩⟩

/-- Witness for C7 at the distances `0` and `1`. -/
theorem claim_C7_score_monotone_witness :
    (0:ℚ) ≤ 0 ∧ (0:ℚ) < 1 ∧ dScore 1 < dScore 0 ∧ 0 < dScore 0 ∧ dScore 0 ≤ 1 :=
  ⟨le_refl 0, by norm_num,
    claim_C7_score_monotone.1 0 1 (le_refl 0) (by norm_num),
    (claim_C7_score_monotone.2 0 (le_refl 0)).1,
    (claim_C7_score_monotone.2 0 (le_refl 0)).2⟩

/-! ### `add_document` atomicity -/

theorem optMapM_forall {f : α → Option β} :
    ∀ {xs : List α} {ys : List β}, optMapM f xs = some ys →
      ∀ y ∈ ys, ∃ x ∈ xs, f x = some y := by
  intro xs
  induction xs with
  | nil =>
    intro ys h y hy
    unfold optMapM at h
    obtain rfl : ([] : List β) = ys := Option.some.inj h
    simp at hy
  | cons x xs ih =>
    intro ys h y hy
    unfold optMapM at h
    cases hfx : f x with
    | none => rw [hfx] at h; exact Option.noConfusion h
    | some z =>
      rw [hfx] at h
      cases hrest : optMapM f xs with
      | none => rw [hrest] at h; exact Option.noConfusion h
      | some zs =>
        rw [hrest] at h
        obtain rfl : z :: zs = ys := by simpa using h
        rcases List.mem_cons.mp hy with rfl | hmem
        · exact ⟨x, List.mem_cons_self x xs, hfx⟩
        · obtain ⟨x', hx', hf'⟩ := ih hrest y hmem
          exact ⟨x', List.mem_cons_of_mem _ hx', hf'⟩

theorem embedChunks_isSome {enc : PyStr → Option (List ℚ)}
    {cs chunks : List TextChunk} (h : embedChunks enc cs = some chunks) :
    ∀ c ∈ chunks, c.embedding.isSome := by
  unfold embedChunks at h
  by_cases h0 : cs = []
  · rw [if_pos h0] at h
    obtain rfl : ([] : List TextChunk) = chunks := Option.some.inj h
    simp
  · rw [if_neg h0] at h
    intro c hc
    obtain ⟨x, _, hf⟩ := optMapM_forall h c hc
    cases henc : enc x.text with
    | none => rw [henc] at hf; exact Option.noConfusion hf
    | some emb =>
      rw [henc] at hf
      obtain rfl : ({ x with embedding := some emb } : TextChunk) = c := by
        simpa using hf
      rfl

/-- The complete case analysis of one `add_document` call: an embedding
failure propagates with the store untouched; an empty chunk list returns `[]`
with the store untouched; a successful non-empty run returns chunks that all
carry embeddings and appends one vector and one record per chunk. -/
theorem addDocument_spec (enc : PyStr → Option (List ℚ)) (fuel : Nat)
    (st : Store) (text : PyStr) (meta : PyDict) :
    (∀ st', addDocument enc fuel st text meta = some (.raised st') → st' = st) ∧
    (∀ chunks st',
      addDocument enc fuel st text meta = some (.returned chunks st') →
      (chunks = [] → st' = st) ∧
      (chunks ≠ [] →
        (∀ c ∈ chunks, c.embedding.isSome) ∧
        st'.index = st.index ++ chunks.map (fun c => c.embedding.getD []) ∧
        st'.meta = st.meta ++ chunks.map (fun c =>
          { text := c.text, metadata := c.metadata,
            embedding := .pyList (c.embedding.getD []) }))) := by
  cases hp : processDocument enc fuel text meta with
  | none =>
    constructor
    · intro st' h
      rw [addDocument, hp] at h
      exact Option.noConfusion h
    · intro chunks st' h
      rw [addDocument, hp] at h
      exact Option.noConfusion h
  | some o =>
    cases o with
    | none =>
      constructor
      · intro st' h
        rw [addDocument, hp] at h
        dsimp only at h
        simp only [Option.some.injEq, AddOutcome.raised.injEq] at h
        exact h.symm
      · intro chunks st' h
        rw [addDocument, hp] at h
        dsimp only at h
        simp at h
    | some pchunks =>
      by_cases h0 : pchunks = []
      · subst h0
        constructor
        · intro st' h
          rw [addDocument, hp] at h
          dsimp only at h
          simp at h
        · intro chunks st' h
          rw [addDocument, hp] at h
          dsimp only at h
          rw [if_pos rfl] at h
          simp only [Option.some.injEq, AddOutcome.returned.injEq] at h
          obtain ⟨rfl, rfl⟩ := h
          exact ⟨fun _ => rfl, fun hne => absurd rfl hne⟩
      · constructor
        · intro st' h
          rw [addDocument, hp] at h
          dsimp only at h
          rw [if_neg h0] at h
          exact AddOutcome.noConfusion (Option.some.inj h)
        · intro chunks st' h
          rw [addDocument, hp] at h
          dsimp only at h
          rw [if_neg h0] at h
          simp only [Option.some.injEq, AddOutcome.returned.injEq] at h
          obtain ⟨rfl, rfl⟩ := h
          refine ⟨fun hc => absurd hc h0, fun _ => ⟨?_, rfl, rfl⟩⟩
          have hemb : ∃ cl, embedChunks enc cl = some pchunks := by
            unfold processDocument at hp
            cases hct : chunkTextFuel fuel (cleanText text) meta with
            | none => rw [hct] at hp; exact Option.noConfusion hp
            | some cl =>
              rw [hct] at hp
              dsimp only at hp
              exact ⟨cl, Option.some.inj hp⟩
          obtain ⟨cl, hemb⟩ := hemb
          exact embedChunks_isSome hemb

/-- **C2.** `add_document` is all-or-nothing: if the embedding call raises,
the store (FAISS index and metadata store) is left exactly in its prior
state; when the chunk list is empty the call returns `[]` without touching
either; on success it returns the added chunks with embeddings set while
appending exactly one vector and one record per chunk. -/
theorem claim_C2_add_document_atomic :
    ∀ (enc : PyStr → Option (List ℚ)) (fuel : Nat) (st : Store)
      (text : PyStr) (meta : PyDict),
    (∀ st', addDocument enc fuel st text meta = some (.raised st') → st' = st) ∧
    (∀ chunks st',
      addDocument enc fuel st text meta = some (.returned chunks st') →
      (chunks = [] → st' = st) ∧
      (chunks ≠ [] →
        (∀ c ∈ chunks, c.embedding.isSome) ∧
        st'.index = st.index ++ chunks.map (fun c => c.embedding.getD []) ∧
        st'.meta = st.meta ++ chunks.map (fun c =>
          { text := c.text, metadata := c.metadata,
            embedding := .pyList (c.embedding.getD []) }))) :=
  fun enc fuel st text meta => addDocument_spec enc fuel st text meta

/-- Encoder whose batch call always raises. -/
def encFail : PyStr → Option (List ℚ) := fun _ => none

/-- Witness for C2: on the document `"hi"` with a failing encoder,
`add_document` raises and the (non-empty) prior store is returned intact. -/
theorem claim_C2_add_document_atomic_witness :
    addDocument encFail 2 { index := [[7]], meta := [] } (String.toList "hi") [] =
      some (.raised { index := [[7]], meta := [] }) ∧
    ({ index := [[7]], meta := [] } : Store) = { index := [[7]], meta := [] } := by
  refine ⟨by decide, ?_⟩
  exact (claim_C2_add_document_atomic encFail 2 { index := [[7]], meta := [] }
    (String.toList "hi") []).1 { index := [[7]], meta := [] } (by decide)

/-- **C3 helper.** One operation preserves alignment of index and metadata
lengths. -/
theorem runOp_aligned {enc : PyStr → Option (List ℚ)} {fuel : Nat}
    {st st' : Store} {op : StoreOp} (h : runOp enc fuel st op = some st')
    (hst : st.index.length = st.meta.length) :
    st'.index.length = st'.meta.length := by
  cases op with
  | clear =>
    obtain rfl : clearStore st = st' := Option.some.inj h
    rfl
  | add t m =>
    unfold runOp at h
    dsimp only at h
    cases ha : addDocument enc fuel st t m with
    | none => rw [ha] at h; exact Option.noConfusion h
    | some out =>
      rw [ha] at h
      cases out with
      | raised st1 =>
        dsimp only at h
        obtain rfl : st1 = st' := Option.some.inj h
        rw [(addDocument_spec enc fuel st t m).1 st1 ha]
        exact hst
      | returned cs st1 =>
        dsimp only at h
        obtain rfl : st1 = st' := Option.some.inj h
        by_cases hcs : cs = []
        · rw [((addDocument_spec enc fuel st t m).2 cs st1 ha).1 hcs]
          exact hst
        · obtain ⟨_, hidx, hmeta⟩ := ((addDocument_spec enc fuel st t m).2 cs st1 ha).2 hcs
          rw [hidx, hmeta]
          simp [hst]

theorem runOps_aligned {enc : PyStr → Option (List ℚ)} {fuel : Nat} :
    ∀ {ops : List StoreOp} {st st' : Store},
      st.index.length = st.meta.length →
      runOps enc fuel ops st = some st' →
      st'.index.length = st'.meta.length := by
  intro ops
  induction ops with
  | nil =>
    intro st st' hst h
    obtain rfl : st = st' := Option.some.inj h
    exact hst
  | cons op ops ih =>
    intro st st' hst h
    unfold runOps at h
    cases h1 : runOp enc fuel st op with
    | none => rw [h1] at h; exact Option.noConfusion h
    | some st1 =>
      rw [h1] at h
      exact ih (runOp_aligned h1 hst) h

/-- **C3.** After any finite sequence of `add_document`/`clear` calls on a
freshly constructed `DocumentStore`, the number of vectors in the FAISS index
equals the number of records in the metadata store. -/
theorem claim_C3_alignment :
    ∀ (enc : PyStr → Option (List ℚ)) (fuel : Nat) (ops : List StoreOp)
      (st' : Store),
      runOps enc fuel ops freshStore = some st' →
      st'.index.length = st'.meta.length :=
  fun _ _ _ _ h => runOps_aligned rfl h

/-- Witness for C3: add a document, clear, add again — one vector and one
record remain. -/
theorem claim_C3_alignment_witness :
    runOps encUnit 2
      [StoreOp.add (String.toList "hi") [], StoreOp.clear,
       StoreOp.add (String.toList "hi") []] freshStore =
      some { index := [[1]],
             meta := [{ text := String.toList "hi",
                        metadata := [("chunk_start", PyVal.int 0),
                                     ("chunk_end", PyVal.int 2),
                                     ("chunk_id", PyVal.int 0)],
                        embedding := .pyList [1] }] } ∧
    ([[(1:ℚ)]] : List (List ℚ)).length = 1 := by
  refine ⟨by decide, ?_⟩
  have h := claim_C3_alignment encUnit 2
    [StoreOp.add (String.toList "hi") [], StoreOp.clear,
     StoreOp.add (String.toList "hi") []]
    { index := [[1]],
      meta := [{ text := String.toList "hi",
                 metadata := [("chunk_start", PyVal.int 0),
                              ("chunk_end", PyVal.int 2),
                              ("chunk_id", PyVal.int 0)],
                 embedding := .pyList [1] }] }
    (by decide)
  exact h

/-! ### `search` post-processing -/

theorem keepOne_eq_some {recs : List StoredRec} {θ : ℚ} {p : Int × ℚ}
    {r : SearchResult} :
    keepOne recs θ p = some r ↔
      (0 ≤ p.1 ∧ p.1 < (recs.length : Int)) ∧ θ ≤ dScore p.2 ∧
      ∃ rec, recs.get? p.1.toNat = some rec ∧
        r = { text := rec.text, metadata := rec.metadata, score := dScore p.2 } := by
  unfold keepOne
  by_cases h1 : p.1 < 0 ∨ (recs.length : Int) ≤ p.1
  · rw [if_pos h1]
    constructor
    · intro hf; exact absurd hf (by simp)
    · rintro ⟨⟨ha, hb⟩, -⟩; omega
  · rw [if_neg h1]
    push_neg at h1
    by_cases h2 : θ ≤ dScore p.2
    · rw [if_pos h2]
      constructor
      · intro hf
        obtain ⟨rec, hrec, hr⟩ := Option.map_eq_some'.mp hf
        exact ⟨⟨by omega, by omega⟩, h2, rec, hrec, hr.symm⟩
      · rintro ⟨-, -, rec, hrec, rfl⟩
        rw [hrec]
        rfl
    · rw [if_neg h2]
      constructor
      · intro hf; exact absurd hf (by simp)
      · rintro ⟨-, hθ, -⟩; exact absurd hθ h2

theorem keepOne_score {recs : List StoredRec} {θ : ℚ} {p : Int × ℚ}
    {r : SearchResult} (h : keepOne recs θ p = some r) : r.score = dScore p.2 := by
  obtain ⟨-, -, rec, -, rfl⟩ := keepOne_eq_some.mp h
  rfl

/-- When the index returns its pairs in ascending-distance order (as FAISS
does) with non-negative distances, the retained results are already in
descending-score order. -/
theorem keptResults_pairwise {out : List (Int × ℚ)} {recs : List StoredRec}
    {θ : ℚ} (hsort : List.Pairwise (fun (p q : Int × ℚ) => p.2 ≤ q.2) out)
    (hpos : ∀ p ∈ out, 0 ≤ p.2) :
    (keptResults out recs θ).Pairwise (fun a b => b.score ≤ a.score) := by
  unfold keptResults
  induction out with
  | nil => simp
  | cons p out ih =>
    rw [List.filterMap_cons]
    obtain ⟨hhead, htail⟩ := List.pairwise_cons.mp hsort
    have hpos' : ∀ q ∈ out, 0 ≤ q.2 := fun q hq => hpos q (List.mem_cons_of_mem _ hq)
    cases hk : keepOne recs θ p with
    | none => exact ih htail hpos'
    | some r =>
      refine List.Pairwise.cons ?_ (ih htail hpos')
      intro r' hr'
      obtain ⟨q, hq, hkq⟩ := List.mem_filterMap.mp hr'
      rw [keepOne_score hk, keepOne_score hkq]
      exact dScore_anti (hpos p (List.mem_cons_self _ _)) (hhead q hq)

theorem keepOne_nil (θ : ℚ) (p : Int × ℚ) : keepOne [] θ p = none := by
  unfold keepOne
  rw [if_pos]
  simp only [List.length_nil, Nat.cast_zero]
  omega

theorem keptResults_nil (out : List (Int × ℚ)) (θ : ℚ) :
    keptResults out [] θ = [] := by
  unfold keptResults
  induction out with
  | nil => rfl
  | cons p out ih =>
    rw [List.filterMap_cons, keepOne_nil]
    exact ih

theorem searchPost_nil (out : List (Int × ℚ)) (θ : ℚ) :
    searchPost out [] θ = [] := by
  unfold searchPost
  rw [keptResults_nil]
  exact List.mergeSort_nil

/-- **C4.** `search` post-processing: (i) the returned results are exactly the
records at in-bounds index positions whose score `1/(1+d)` is at least the
threshold (inclusive), with the score attached; (ii) when the index reports
ascending non-negative distances — as the FAISS flat index does — the result
equals the retained list in its original order, hence is sorted by score
descending with ties kept in the original ascending-distance order (Python's
`sort` is stable); (iii) on an empty store the search result is empty for
every query, `k`, threshold, and index behaviour. -/
theorem claim_C4_search_semantics :
    (∀ (out : List (Int × ℚ)) (recs : List StoredRec) (θ : ℚ) (r : SearchResult),
      r ∈ searchPost out recs θ ↔ ∃ p ∈ out,
        (0 ≤ p.1 ∧ p.1 < (recs.length : Int)) ∧ θ ≤ dScore p.2 ∧
        ∃ rec, recs.get? p.1.toNat = some rec ∧
          r = { text := rec.text, metadata := rec.metadata, score := dScore p.2 }) ∧
    (∀ (out : List (Int × ℚ)) (recs : List StoredRec) (θ : ℚ),
      List.Pairwise (fun (p q : Int × ℚ) => p.2 ≤ q.2) out →
      (∀ p ∈ out, 0 ≤ p.2) →
      searchPost out recs θ = keptResults out recs θ ∧
      (searchPost out recs θ).Pairwise (fun a b => b.score ≤ a.score)) ∧
    (∀ (faiss : List (List ℚ) → List ℚ → Nat → List (Int × ℚ))
      (enc : PyStr → Option (List ℚ)) (st : Store) (q : PyStr) (k : Nat)
      (θ : ℚ) (qv : List ℚ),
      st.meta = [] → enc q = some qv →
      searchStore faiss enc st q k θ = some []) := by
  refine ⟨?_, ?_, ?_⟩
  · intro out recs θ r
    unfold searchPost
    rw [(List.mergeSort_perm (keptResults out recs θ)
      (fun a b => decide (b.score ≤ a.score))).mem_iff]
    unfold keptResults
    rw [List.mem_filterMap]
    constructor
    · rintro ⟨p, hp, hk⟩
      exact ⟨p, hp, keepOne_eq_some.mp hk⟩
    · rintro ⟨p, hp, hk⟩
      exact ⟨p, hp, keepOne_eq_some.mpr hk⟩
  · intro out recs θ hsort hpos
    have hpair := @keptResults_pairwise out recs θ hsort hpos
    have heq : searchPost out recs θ = keptResults out recs θ := by
      unfold searchPost
      refine List.mergeSort_of_sorted ?_
      exact hpair.imp (fun h => decide_eq_true h)
    exact ⟨heq, heq ▸ hpair⟩
  · intro faiss enc st q k θ qv hmeta henc
    unfold searchStore
    rw [henc]
    rw [Option.map_some']
    rw [hmeta, searchPost_nil]

/-- A one-record store entry used in concrete search runs. -/
def recX : StoredRec :=
  { text := String.toList "x", metadata := [], embedding := .pyList [1] }

/-- A concrete index answer: two hits at distances `0` and `1`. -/
def outX : List (Int × ℚ) := [(0, 0), (1, 1)]

/-- Witness for C4: a two-hit ascending-distance answer against a two-record
store needs no reordering, and an empty store yields an empty result. -/
theorem claim_C4_search_semantics_witness :
    searchPost outX [recX, recX] 0 = keptResults outX [recX, recX] 0 ∧
    searchStore (fun _ _ _ => outX) encUnit freshStore (String.toList "q") 5
      (1/2) = some [] := by
  constructor
  · exact (claim_C4_search_semantics.2.1 outX [recX, recX] 0 (by decide)
      (by decide)).1
  · exact claim_C4_search_semantics.2.2 (fun _ _ _ => outX) encUnit freshStore
      (String.toList "q") 5 (1/2) [1] rfl rfl

/-! ### Persistence round-trip -/

theorem keepOne_loadEmbed (recs : List StoredRec) (θ : ℚ) (p : Int × ℚ) :
    keepOne (recs.map (fun r => { r with embedding := EmbRep.npArr r.embedding.val }))
      θ p = keepOne recs θ p := by
  unfold keepOne
  rw [List.length_map]
  split_ifs with h1 h2
  · rfl
  · rw [List.get?_map]
    cases recs.get? p.1.toNat <;> rfl
  · rfl

theorem keptResults_loadEmbed (out : List (Int × ℚ)) (recs : List StoredRec)
    (θ : ℚ) :
    keptResults out
      (recs.map (fun r => { r with embedding := EmbRep.npArr r.embedding.val })) θ =
    keptResults out recs θ := by
  unfold keptResults
  exact List.filterMap_congr (fun p _ => keepOne_loadEmbed recs θ p)

/-- **C5.** Whenever `save` succeeds (its `json.dump` requires the stored
embeddings to be the lists `add_document` writes), loading the saved
directory yields a store whose `search` results — text, metadata and score —
are identical to the original store's for every query, `k` and threshold
(and for every behaviour of the embedding model and the FAISS index).  The
round-trip changes only the in-memory representation of each record's
embedding (`np.array` instead of list), which `search` never reads. -/
theorem claim_C5_save_load_roundtrip :
    ∀ (st : Store) (p : Persisted), saveStore st = some p →
      ∀ (faiss : List (List ℚ) → List ℚ → Nat → List (Int × ℚ))
        (enc : PyStr → Option (List ℚ)) (q : PyStr) (k : Nat) (θ : ℚ),
        searchStore faiss enc (loadStore p) q k θ =
          searchStore faiss enc st q k θ := by
  intro st p hsave faiss enc q k θ
  unfold saveStore at hsave
  split_ifs at hsave with hall
  obtain rfl : ({ indexFile := st.index, metadataJson := st.meta } : Persisted) = p :=
    Option.some.inj hsave
  unfold loadStore searchStore
  dsimp only
  cases henc : enc q with
  | none => rfl
  | some qv =>
    rw [Option.map_some', Option.map_some']
    congr 1
    unfold searchPost
    rw [keptResults_loadEmbed]

/-- The one-record store of the persistence witness. -/
def stX : Store := { index := [[1]], meta := [recX] }

/-- What `save` writes for `stX`. -/
def perX : Persisted := { indexFile := [[1]], metadataJson := [recX] }

/-- Witness for C5: saving and loading the one-record store `stX` leaves
every search answer unchanged. -/
theorem claim_C5_save_load_roundtrip_witness :
    saveStore stX = some perX ∧
    searchStore (fun _ _ _ => outX) encUnit (loadStore perX)
      (String.toList "q") 5 (1/2) =
    searchStore (fun _ _ _ => outX) encUnit stX (String.toList "q") 5 (1/2) := by
  refine ⟨by decide, ?_⟩
  exact claim_C5_save_load_roundtrip stX perX (by decide) (fun _ _ _ => outX)
    encUnit (String.toList "q") 5 (1/2)
